import Mathlib

/-!
Verification development for the Rag_AI_MIL repository.

Text is modelled as `List Char`; Python `str.split()` (whitespace
tokenisation), `str.strip()`, `' '.join(..)` and the two `re.sub` calls of
`TextCleaner.clean_text` are embedded as executable functions below.
Floating-point scores are modelled as exact rationals (scores in this code
are ratios of small integers), except cosine similarity whose value lives
in `ℝ` because of `math.sqrt`.
-/

/-- Python whitespace (`str.split`, `str.strip`, regex `\s`). -/
def isPyWs (c : Char) : Bool :=
  c = ' ' ∨ c = '\t' ∨ c = '\n' ∨ c = '\x0d' ∨ c = '\x0b' ∨ c = '\x0c'

/-- ASCII lowercasing, as `str.lower()` acts on the ASCII range. -/
def toLowerAscii (c : Char) : Char :=
  if 'A' ≤ c ∧ c ≤ 'Z' then Char.ofNat (c.toNat + 32) else c

/-- Helper for `pySplit`: `acc` is the current (reversed) token. -/
def pySplitAux : List Char → List Char → List (List Char)
  | [], acc => if acc = [] then [] else [acc.reverse]
  | c :: cs, acc =>
    if isPyWs c then
      if acc = [] then pySplitAux cs [] else acc.reverse :: pySplitAux cs []
    else pySplitAux cs (c :: acc)

/-- Python `text.split()`: maximal runs of non-whitespace characters. -/
def pySplit (l : List Char) : List (List Char) := pySplitAux l []

/-- Python `text.strip()`: drop leading and trailing whitespace. -/
def pyStrip (l : List Char) : List Char :=
  ((l.dropWhile isPyWs).reverse.dropWhile isPyWs).reverse

/-- Helper for `collapseWs`; the flag records whether the previous
character was whitespace (so the run has already emitted its space). -/
def collapseAux : Bool → List Char → List Char
  | _, [] => []
  | prevWs, c :: cs =>
    if isPyWs c then
      if prevWs then collapseAux true cs else ' ' :: collapseAux true cs
    else c :: collapseAux false cs

/-- Python `re.sub(r'\s+', ' ', text)`: each maximal whitespace run
becomes a single space. -/
def collapseWs (l : List Char) : List Char := collapseAux false l

/-- Python `' '.join(parts)`. -/
def joinSp : List (List Char) → List Char
  | [] => []
  | [s] => s
  | s :: s' :: rest => s ++ ' ' :: joinSp (s' :: rest)

/-- Characters kept by `re.sub(r'[^a-z0-9\s]', '', text)`. -/
def keepChar (c : Char) : Bool :=
  ('a' ≤ c ∧ c ≤ 'z') ∨ ('0' ≤ c ∧ c ≤ '9') ∨ isPyWs c

/-- `TextCleaner.clean_text` (src/text_cleaner.py lines 12-20):
lowercase, strip, remove characters outside `[a-z0-9\s]`, collapse
whitespace runs to single spaces — in exactly that order. -/
def clean_text (text : List Char) : List Char :=
  collapseWs ((pyStrip (text.map toLowerAscii)).filter keepChar)

/-- `TextCleaner.get_word_count` / `TextChunker.count_words`:
`len(text.split())`. -/
def count_words (text : List Char) : Nat := (pySplit text).length

/-! ## TextChunker (src/chunking_utility.py) -/

/-- A word-based chunk record (`chunk_by_words`, lines 46-53).  `wordsList`
mirrors the local `chunk_words = words[start:end]`; the stored `text` is
`' '.join(chunk_words)` and `word_count` is `len(chunk_words)`. -/
structure WChunk where
  chunkId : Nat
  wordsList : List (List Char)
  text : List Char
  startWord : Nat
  endWord : Nat
  wordCount : Nat
deriving Repr, DecidableEq

/-- The `while start < len(words)` loop of `TextChunker.chunk_by_words`
(lines 41-59), with explicit fuel; `none` means the fuel ran out.  In the
Python source `start = end - self.overlap` may go negative, but the break
test `start <= chunks[-1]['start_word']` and, when no break happens, the
subsequent values agree with truncated `Nat` subtraction (a negative next
start always breaks, as does a zero one, because the previous start is
`≥ 0`). -/
def chunkLoopF (chunk_size overlap : Nat) (words : List (List Char)) :
    Nat → Nat → Nat → Option (List WChunk)
  | 0, _, _ => none
  | fuel + 1, start, chunk_id =>
    if start < words.length then
      let e := min (start + chunk_size) words.length
      let cw := (words.drop start).take (e - start)
      let c : WChunk := ⟨chunk_id, cw, joinSp cw, start, e, cw.length⟩
      let start' := e - overlap
      if start' ≤ start then some [c]
      else (chunkLoopF chunk_size overlap words fuel start' (chunk_id + 1)).map (c :: ·)
    else some []

/-- `TextChunker.chunk_by_words` (lines 32-61).  Fuel `words.length + 1`
is enough (proved below): each iteration that does not break strictly
increases `start`. -/
def chunk_by_words (chunk_size overlap : Nat) (text : List Char) :
    Option (List WChunk) :=
  let words := pySplit text
  chunkLoopF chunk_size overlap words (words.length + 1) 0 0

/-- A sentence-based chunk record (`chunk_by_sentences`, lines 77-102).
`sentences` mirrors the local `current_chunk` list; the stored `text` is
`' '.join(current_chunk)`, `sentence_count` is `len(current_chunk)` and
`word_count` is the running `current_word_count`. -/
structure SChunk where
  chunkId : Nat
  sentences : List (List Char)
  wordCount : Nat
deriving Repr, DecidableEq

/-- `' '.join(current_chunk)`: the `text` field of a sentence chunk. -/
def SChunk.text (c : SChunk) : List Char := joinSp c.sentences

/-- `len(current_chunk)`: the `sentence_count` field of a sentence chunk. -/
def SChunk.sentenceCount (c : SChunk) : Nat := c.sentences.length

/-- Sum of `count_words` over a sentence list
(`sum(self.count_words(s) for s in current_chunk)`). -/
def sumWc (ss : List (List Char)) : Nat := (ss.map count_words).sum

/-- `current_chunk[-2:] if len(current_chunk) >= 2 else current_chunk`
(line 86). -/
def lastTwo (l : List (List Char)) : List (List Char) :=
  if l.length ≥ 2 then l.drop (l.length - 2) else l

/-- The `for sentence in sentences` loop of
`TextChunker.chunk_by_sentences` (lines 73-102), including the final
flush of `current_chunk`. -/
def chunkSentLoop (chunk_size : Nat) :
    List (List Char) → List (List Char) → Nat → Nat → List SChunk
  | [], current, wc, chunk_id =>
    if current = [] then [] else [⟨chunk_id, current, wc⟩]
  | s :: rest, current, wc, chunk_id =>
    let swc := count_words s
    if wc + swc > chunk_size ∧ current ≠ [] then
      let seed := lastTwo current
      ⟨chunk_id, current, wc⟩ ::
        chunkSentLoop chunk_size rest (seed ++ [s]) (sumWc seed + swc) (chunk_id + 1)
    else
      chunkSentLoop chunk_size rest (current ++ [s]) (wc + swc) chunk_id

/-- Helper for `split_into_sentences`: split before a whitespace
character whose predecessor is terminal punctuation
(`re.split(r'(?<=[.!?])\s+', text)`); `acc` is the current (reversed)
piece.  The regex consumes a whole whitespace run whereas this helper
consumes its first character and leaves the rest as leading whitespace of
the next piece; the subsequent `strip` makes the two readings agree. -/
def isTermPunct : List Char → Bool
  | p :: _ => p = '.' ∨ p = '!' ∨ p = '?'
  | [] => false

def sentSplitAux : List Char → List Char → List (List Char)
  | [], acc => [acc.reverse]
  | c :: cs, acc =>
    if isPyWs c ∧ isTermPunct acc then
      acc.reverse :: sentSplitAux cs []
    else sentSplitAux cs (c :: acc)

/-- `TextChunker.split_into_sentences` (lines 21-26): regex split, then
`[s.strip() for s in sentences if s.strip()]`. -/
def split_into_sentences (text : List Char) : List (List Char) :=
  ((sentSplitAux text []).map pyStrip).filter (· ≠ [])

/-- `TextChunker.chunk_by_sentences` (lines 63-104). -/
def chunk_by_sentences (chunk_size : Nat) (text : List Char) : List SChunk :=
  chunkSentLoop chunk_size (split_into_sentences text) [] 0 0

/-! ## FAQFinder (src/faq_finder.py) -/

/-- The `self.stop_words` set (faq_finder.py lines 15-19). -/
def stop_words : List (List Char) :=
  ["a", "an", "the", "is", "are", "am", "be", "to", "of", "in",
   "on", "at", "for", "with", "do", "does", "i", "you", "we",
   "they", "there", "can", "will", "it", "what", "how", "when",
   "where"].map String.toList

/-- The `self.synonyms` table (faq_finder.py lines 21-34). -/
def synonyms : List (List Char × List (List Char)) :=
  [("sign", ["register", "signup", "join", "enroll"]),
   ("register", ["sign", "signup", "join", "enroll"]),
   ("signup", ["sign", "register", "join", "enroll"]),
   ("pay", ["fee", "cost", "price", "money", "charge"]),
   ("fee", ["pay", "cost", "price", "money", "charge"]),
   ("cost", ["pay", "fee", "price", "money", "charge"]),
   ("start", ["schedule", "time", "begin", "when"]),
   ("time", ["schedule", "start", "when"]),
   ("when", ["time", "schedule", "start"]),
   ("where", ["venue", "location", "place"]),
   ("venue", ["where", "location", "place"]),
   ("location", ["where", "venue", "place"])].map
    fun p => (p.1.toList, p.2.map String.toList)

/-- `FAQFinder.expand_with_synonyms` (lines 56-62): the word set plus
every synonym listed for a member of the set. -/
def expand_with_synonyms (ws : Finset (List Char)) : Finset (List Char) :=
  ws ∪ ws.biUnion fun w =>
    (((synonyms.find? fun p => p.1 == w).map fun p => p.2).getD []).toFinset

/-- The token set the matcher actually scores with, for one cleaned text
(faq_finder.py lines 70-74 for the query, 80-84 for an entry): tokens
minus stop words, synonym-expanded, falling back to the raw token set
when that is empty. -/
def effective_words (clean : List Char) : Finset (List Char) :=
  let raw := (pySplit clean).toFinset \ stop_words.toFinset
  let expanded := expand_with_synonyms raw
  if expanded = ∅ then (pySplit clean).toFinset else expanded

/-- One stored FAQ entry; `add_faq` (lines 36-42) derives
`question_clean` with the cleaner. -/
structure FAQ where
  question : String
  answer : String
  question_clean : List Char
deriving Repr, DecidableEq

/-- `FAQFinder.add_faq`: build the stored entry for a question/answer
pair. -/
def add_faq (q a : String) : FAQ := ⟨q, a, clean_text q.toList⟩

/-- `len(intersection) / len(union) if union else 0.0`
(faq_finder.py lines 86-89). -/
def jaccardScore (u f : Finset (List Char)) : ℚ :=
  if u ∪ f = ∅ then 0 else ((u ∩ f).card : ℚ) / ((u ∪ f).card : ℚ)

/-- The `for faq in self.faqs` selection loop (lines 76-93): keep the
entry with strictly greatest score, starting from
`best_match = None, best_score = 0.0`. -/
def scanFaqs (u : Finset (List Char)) :
    List FAQ → Option FAQ × ℚ → Option FAQ × ℚ
  | [], acc => acc
  | f :: rest, acc =>
    let s := jaccardScore u (effective_words f.question_clean)
    if s > acc.2 then scanFaqs u rest (some f, s) else scanFaqs u rest acc

/-- Result dictionary of `find_answer`. -/
structure FAResult where
  answer : String
  confidence : ℚ
  matched_question : Option String
deriving Repr, DecidableEq

/-- `FAQFinder.find_answer` (lines 64-102).  `none` models the uncaught
`TypeError` raised when the final branch subscripts
`best_match['answer']` while `best_match` is still `None`. -/
def find_answer (faqs : List FAQ) (user_question : String) (threshold : ℚ) :
    Option FAResult :=
  if faqs = [] then some ⟨"No FAQs loaded.", 0, none⟩
  else
    let user_clean := clean_text user_question.toList
    let user_words := effective_words user_clean
    let best := scanFaqs user_words faqs (none, 0)
    if best.2 < threshold then
      some ⟨"I couldn't find a good answer found.", best.2, none⟩
    else
      match best.1 with
      | none => none
      | some f => some ⟨f.answer, best.2, some f.question⟩

/-! ## SemanticSimilarity (src/semantic_similarity.py) -/

/-- `sum(a * a for a in vec)`. -/
def sumSq (v : List ℚ) : ℚ := (v.map fun a => a * a).sum

/-- `sum(a * b for a, b in zip(vec1, vec2))`. -/
def dotProd (v1 v2 : List ℚ) : ℚ := ((v1.zip v2).map fun p => p.1 * p.2).sum

open Classical in
/-- `SemanticSimilarity.cosine_similarity` (lines 12-26): raise on a
length mismatch; return `0.0` when either magnitude
(`math.sqrt(sum(a*a))`) is zero; otherwise the dot product over the
product of magnitudes. -/
noncomputable def cosine_similarity (v1 v2 : List ℚ) : Except String ℝ :=
  if v1.length ≠ v2.length then
    .error ("Vectors must be same length! Got " ++ toString v1.length ++
      " and " ++ toString v2.length)
  else if Real.sqrt ((sumSq v1 : ℚ) : ℝ) = 0 ∨
      Real.sqrt ((sumSq v2 : ℚ) : ℝ) = 0 then .ok 0
  else .ok ((dotProd v1 v2 : ℝ) /
    (Real.sqrt ((sumSq v1 : ℚ) : ℝ) * Real.sqrt ((sumSq v2 : ℚ) : ℝ)))

/-! ## RAGAgent (src/rag_agent.py) -/

/-- One retrieved chunk dictionary as produced by `KnowledgeBase.query`
and consumed by the agent: text, a metadata mapping, and the
`'similarity'` entry (which that code may set to `None`). -/
structure Passage where
  text : String
  metadata : List (String × String)
  similarity : Option ℚ
deriving Repr, DecidableEq

/-- The agent's state that `answer` reads: an optionally connected
knowledge base, treated as an opaque query function (the vector store is
an external collaborator). -/
structure RAGAgent where
  knowledge_base : Option (String → Nat → List Passage)

/-- `RAGAgent.retrieve_context` (lines 62-78): empty when no knowledge
base is connected, else whatever the store returns. -/
def retrieve_context (agent : RAGAgent) (query : String) (top_k : Nat) :
    List Passage :=
  match agent.knowledge_base with
  | none => []
  | some kb => kb query top_k

/-- Literal prefix of the empty-context prompt (rag_agent.py line 92),
up to the interpolated query. -/
def noCtxPre : String := "The user asked: \""

/-- Literal suffix of the empty-context prompt (lines 92-96), after the
interpolated query. -/
def noCtxPost : String :=
  "\"\n\nYou don't have any relevant information in your knowledge base to answer this question.\nPlease respond honestly that you don't have this information available, and suggest \nthat the user might need to provide relevant documents or ask a different question."

/-- `chunk['metadata'].get('source', 'Unknown Source')` (line 102). -/
def sourceOf (ch : Passage) : String :=
  (ch.metadata.lookup "source").getD "Unknown Source"

/-- The `for i, chunk in enumerate(context_chunks, 1)` block builder
(lines 101-105). -/
def contextBlocks : Nat → List Passage → String
  | _, [] => ""
  | i, ch :: rest =>
    "[Source " ++ toString i ++ ": " ++ sourceOf ch ++ "]\n" ++ ch.text ++
      "\n\n" ++ contextBlocks (i + 1) rest

/-- `RAGAgent.build_prompt_with_context` (lines 80-125). -/
def build_prompt_with_context (query : String) (context_chunks : List Passage) :
    String :=
  if context_chunks = [] then noCtxPre ++ query ++ noCtxPost
  else
    let context_text :=
      "=== KNOWLEDGE BASE CONTEXT ===\n\nHere are relevant excerpts from the knowledge base:\n\n"
        ++ contextBlocks 1 context_chunks
    context_text ++ "\n=== USER QUESTION ===\n\n" ++ query ++
      "\n\n=== INSTRUCTIONS ===\n\nPlease answer the user's question using ONLY the information provided in the context above.\n\nImportant guidelines:\n1. Cite which source(s) you used (e.g., \"According to Source 1...\", \"Source 2 states...\")\n2. If the context contains the answer, provide it clearly and concisely\n3. If the context doesn't fully answer the question, say so and explain what information is available\n4. DO NOT make up information or use knowledge outside the provided context\n5. Be helpful and conversational while staying factual\n\nYour answer:"

/-- One entry of the `sources` list in the result of `RAGAgent.answer`
(lines 162-169): preview text, metadata, and `chunk.get('similarity', 0)`
(the stored value, which `KnowledgeBase.query` may have set to `None`). -/
structure SourceSummary where
  text : String
  metadata : List (String × String)
  similarity : Option ℚ
deriving Repr, DecidableEq

/-- The result dictionary of `RAGAgent.answer` (lines 159-172). -/
structure AnswerResult where
  query : String
  answer : String
  sources : List SourceSummary
  num_sources : Nat
  has_sources : Bool

/-- `chunk['text'][:300] + '...' if len(chunk['text']) > 300 else
chunk['text']` (line 164). -/
def pyTruncate (s : String) : String :=
  if s.length > 300 then s.take 300 ++ "..." else s

/-- `RAGAgent.answer` (lines 127-174); the completion collaborator is the
opaque function `llm`. -/
def RAGAgent.answer (agent : RAGAgent) (llm : String → String)
    (query : String) (top_k : Nat) : AnswerResult :=
  let context_chunks := retrieve_context agent query top_k
  let prompt := build_prompt_with_context query context_chunks
  { query := query
    answer := llm prompt
    sources := context_chunks.map fun ch =>
      ⟨pyTruncate ch.text, ch.metadata, ch.similarity⟩
    num_sources := context_chunks.length
    has_sources := decide (0 < context_chunks.length) }

/-- Substring test on character lists (used to state facts about the
prompt templates): does `pat` occur contiguously in the text? -/
def containsSub (pat : List Char) : List Char → Bool
  | [] => decide (pat = [])
  | c :: rest => pat.isPrefixOf (c :: rest) || containsSub pat rest

/-! ## Tokeniser lemmas -/

theorem pySplitAux_tokens (l : List Char) : ∀ (acc : List Char),
    (∀ c ∈ acc, isPyWs c = false) →
    ∀ t ∈ pySplitAux l acc, t ≠ [] ∧ ∀ c ∈ t, isPyWs c = false := by
  induction l with
  | nil =>
    intro acc hacc t ht
    simp only [pySplitAux] at ht
    split at ht
    · simp at ht
    · next h =>
      simp only [List.mem_singleton] at ht
      subst ht
      refine ⟨by simpa using h, ?_⟩
      intro c hc
      exact hacc c (List.mem_reverse.mp hc)
  | cons c cs ih =>
    intro acc hacc t ht
    simp only [pySplitAux] at ht
    by_cases hws : isPyWs c
    · simp only [hws, if_true] at ht
      by_cases hacc0 : acc = []
      · simp only [hacc0, if_true] at ht
        exact ih [] (by simp) t ht
      · simp only [hacc0, if_false] at ht
        rcases List.mem_cons.mp ht with h | h
        · subst h
          refine ⟨by simpa using hacc0, ?_⟩
          intro x hx
          exact hacc x (List.mem_reverse.mp hx)
        · exact ih [] (by simp) t h
    · simp only [hws, if_false] at ht
      refine ih (c :: acc) ?_ t ht
      intro x hx
      rcases List.mem_cons.mp hx with h | h
      · subst h; simpa using hws
      · exact hacc x h

theorem pySplit_tokens {t : List Char} {l : List Char} (h : t ∈ pySplit l) :
    t ≠ [] ∧ ∀ c ∈ t, isPyWs c = false :=
  pySplitAux_tokens l [] (by simp) t h

theorem pySplitAux_ws_append {w : Char} (hw : isPyWs w = true) :
    ∀ (xs acc ys : List Char),
      pySplitAux (xs ++ w :: ys) acc = pySplitAux xs acc ++ pySplitAux ys [] := by
  intro xs
  induction xs with
  | nil =>
    intro acc ys
    simp only [List.nil_append, pySplitAux, hw, if_true]
    by_cases hacc : acc = [] <;> simp [hacc]
  | cons c cs ih =>
    intro acc ys
    simp only [List.cons_append, pySplitAux]
    by_cases hws : isPyWs c
    · simp only [hws, if_true]
      by_cases hacc : acc = [] <;> simp [hacc, ih]
    · simp [hws, ih]

theorem pySplit_ws_append {w : Char} (hw : isPyWs w = true)
    (xs ys : List Char) :
    pySplit (xs ++ w :: ys) = pySplit xs ++ pySplit ys :=
  pySplitAux_ws_append hw xs [] ys

theorem pySplitAux_noWs (l : List Char) : ∀ (acc : List Char),
    (∀ c ∈ l, isPyWs c = false) →
    pySplitAux l acc =
      if acc.reverse ++ l = [] then [] else [acc.reverse ++ l] := by
  induction l with
  | nil =>
    intro acc _
    simp only [pySplitAux, List.append_nil]
    by_cases hacc : acc = [] <;> simp [hacc]
  | cons c cs ih =>
    intro acc hl
    have hc : isPyWs c = false := hl c (List.mem_cons_self c cs)
    simp only [pySplitAux, hc, if_false, Bool.false_eq_true]
    rw [ih (c :: acc) (fun x hx => hl x (List.mem_cons_of_mem c hx))]
    simp

theorem pySplit_single_token {t : List Char} (h0 : t ≠ [])
    (h1 : ∀ c ∈ t, isPyWs c = false) : pySplit t = [t] := by
  unfold pySplit
  rw [pySplitAux_noWs t [] h1]
  simp [h0]

theorem pySplit_joinSp (ss : List (List Char)) :
    pySplit (joinSp ss) = (ss.map pySplit).flatten := by
  induction ss with
  | nil => simp [joinSp, pySplit, pySplitAux]
  | cons s rest ih =>
    cases rest with
    | nil => simp [joinSp]
    | cons s' rest' =>
      simp only [joinSp, List.map_cons, List.flatten_cons]
      rw [pySplit_ws_append (by decide : isPyWs ' ' = true)]
      rw [ih]
      simp

theorem count_words_joinSp (ss : List (List Char)) :
    count_words (joinSp ss) = sumWc ss := by
  unfold count_words sumWc
  rw [pySplit_joinSp, List.length_flatten, List.map_map]
  rfl

/-! ## TextCleaner lemmas (claim C5) -/

theorem collapseAux_chars (l : List Char) : ∀ (b : Bool),
    ∀ c ∈ collapseAux b l, c = ' ' ∨ (c ∈ l ∧ isPyWs c = false) := by
  induction l with
  | nil => intro b c hc; simp [collapseAux] at hc
  | cons x xs ih =>
    intro b c hc
    simp only [collapseAux] at hc
    by_cases hws : isPyWs x
    · simp only [hws, if_true] at hc
      by_cases hb : b
      · subst hb
        simp only [if_true] at hc
        rcases ih true c hc with h | h
        · exact Or.inl h
        · exact Or.inr ⟨List.mem_cons_of_mem x h.1, h.2⟩
      · simp only [hb, if_false] at hc
        rcases List.mem_cons.mp hc with h | h
        · exact Or.inl h
        · rcases ih true c h with h' | h'
          · exact Or.inl h'
          · exact Or.inr ⟨List.mem_cons_of_mem x h'.1, h'.2⟩
    · simp only [hws, if_false, Bool.false_eq_true] at hc
      rcases List.mem_cons.mp hc with h | h
      · subst h
        exact Or.inr ⟨List.mem_cons_self c xs, by simpa using hws⟩
      · rcases ih false c h with h' | h'
        · exact Or.inl h'
        · exact Or.inr ⟨List.mem_cons_of_mem x h'.1, h'.2⟩

theorem collapseAux_head_true (l : List Char) :
    ∀ x, (collapseAux true l).head? = some x → x ≠ ' ' := by
  induction l with
  | nil => intro x hx; simp [collapseAux] at hx
  | cons c cs ih =>
    intro x hx
    simp only [collapseAux] at hx
    by_cases hws : isPyWs c
    · simp only [hws, if_true] at hx
      exact ih x hx
    · simp only [hws, if_false, Bool.false_eq_true, List.head?_cons,
        Option.some.injEq] at hx
      subst hx
      intro h
      subst h
      simp [isPyWs] at hws

theorem collapseAux_no_adjacent_spaces (l : List Char) : ∀ (b : Bool),
    List.Chain' (fun a b => ¬(a = ' ' ∧ b = ' ')) (collapseAux b l) := by
  induction l with
  | nil => intro b; simp [collapseAux]
  | cons c cs ih =>
    intro b
    simp only [collapseAux]
    by_cases hws : isPyWs c
    · simp only [hws, if_true]
      by_cases hb : b
      · subst hb; simpa using ih true
      · simp only [hb, Bool.false_eq_true, if_false]
        rw [List.chain'_cons']
        refine ⟨?_, ih true⟩
        intro y hy
        intro hcon
        exact collapseAux_head_true cs y hy hcon.2
    · simp only [hws, if_false, Bool.false_eq_true]
      rw [List.chain'_cons']
      refine ⟨?_, ih false⟩
      intro y hy hcon
      rw [hcon.1] at hws
      simp [isPyWs] at hws

/-- C5 (counterexample): the specification says `clean_text` never
returns a string with trailing whitespace, but the strip is applied
before the special-character removal; on input `"a ."` the code returns
`"a "`, which ends in a space. -/
theorem clean_text_trailing_space :
    clean_text (String.toList "a .") = ['a', ' '] ∧ isPyWs ' ' = true := by
  decide

/-- C5 (amended): `clean_text` lowercases, strips, removes every
character outside `[a-z0-9\s]`, and collapses whitespace runs to single
spaces (in that order); every character of the result is a lowercase
ASCII letter, a digit, or a single space, and no two spaces are ever
adjacent — but since the strip precedes the character removal, the
result can start or end with a space. -/
theorem clean_text_amended_spec (s : List Char) :
    (∀ c ∈ clean_text s,
      ('a' ≤ c ∧ c ≤ 'z') ∨ ('0' ≤ c ∧ c ≤ '9') ∨ c = ' ') ∧
    List.Chain' (fun a b => ¬(a = ' ' ∧ b = ' ')) (clean_text s) := by
  constructor
  · intro c hc
    unfold clean_text collapseWs at hc
    rcases collapseAux_chars _ false c hc with h | h
    · exact Or.inr (Or.inr h)
    · have hk := List.of_mem_filter h.1
      unfold keepChar at hk
      have hnw := h.2
      simp only [Bool.or_eq_true, decide_eq_true_eq] at hk
      rcases hk with hk | hk | hk
      · exact Or.inl hk
      · exact Or.inr (Or.inl hk)
      · rw [hnw] at hk; cases hk
  · exact collapseAux_no_adjacent_spaces _ false

/-! ## Word-based chunking lemmas (claims C1, C2, C3) -/

theorem chunkLoopF_step_cont (chunk_size overlap : Nat)
    (words : List (List Char)) (fuel start chunk_id : Nat)
    (hs : start < words.length)
    (hbr : ¬ min (start + chunk_size) words.length - overlap ≤ start) :
    chunkLoopF chunk_size overlap words (fuel + 1) start chunk_id =
      (chunkLoopF chunk_size overlap words fuel
          (min (start + chunk_size) words.length - overlap) (chunk_id + 1)).map
        (⟨chunk_id,
          (words.drop start).take (min (start + chunk_size) words.length - start),
          joinSp ((words.drop start).take (min (start + chunk_size) words.length - start)),
          start, min (start + chunk_size) words.length,
          ((words.drop start).take
            (min (start + chunk_size) words.length - start)).length⟩ :: ·) := by
  simp [chunkLoopF, hs, hbr]

theorem chunkLoopF_step_halt (chunk_size overlap : Nat)
    (words : List (List Char)) (fuel start chunk_id : Nat)
    (hs : start < words.length)
    (hbr : min (start + chunk_size) words.length - overlap ≤ start) :
    chunkLoopF chunk_size overlap words (fuel + 1) start chunk_id =
      some [⟨chunk_id,
        (words.drop start).take (min (start + chunk_size) words.length - start),
        joinSp ((words.drop start).take (min (start + chunk_size) words.length - start)),
        start, min (start + chunk_size) words.length,
        ((words.drop start).take
          (min (start + chunk_size) words.length - start)).length⟩] := by
  simp [chunkLoopF, hs, hbr]

theorem chunkLoopF_isSome (chunk_size overlap : Nat)
    (words : List (List Char)) :
    ∀ (fuel start chunk_id : Nat), words.length - start < fuel →
      (chunkLoopF chunk_size overlap words fuel start chunk_id).isSome := by
  intro fuel
  induction fuel with
  | zero => intro start chunk_id h; omega
  | succ f ih =>
    intro start chunk_id h
    by_cases hs : start < words.length
    · by_cases hbr : min (start + chunk_size) words.length - overlap ≤ start
      · rw [chunkLoopF_step_halt chunk_size overlap words f start chunk_id hs hbr]
        rfl
      · rw [chunkLoopF_step_cont chunk_size overlap words f start chunk_id hs hbr]
        have hlt : words.length - (min (start + chunk_size) words.length - overlap) < f := by
          omega
        have h2 := ih (min (start + chunk_size) words.length - overlap)
          (chunk_id + 1) hlt
        rcases Option.isSome_iff_exists.mp h2 with ⟨r, hr⟩
        rw [hr]
        rfl
    · simp [chunkLoopF, hs]

/-- Structural invariant of the word-chunking loop: coverage of the
remaining token range `[start, words.length)`, per-chunk span facts, the
start of the first produced chunk, and the start/end recurrence between
consecutive chunks. -/
theorem chunkLoopF_spec (chunk_size overlap : Nat)
    (words : List (List Char)) (hso : overlap < chunk_size) :
    ∀ (fuel start chunk_id : Nat) (cs : List WChunk),
      chunkLoopF chunk_size overlap words fuel start chunk_id = some cs →
      ((∀ k, (start ≤ k ∧ k < words.length) ↔
          ∃ c ∈ cs, c.startWord ≤ k ∧ k < c.endWord) ∧
       (∀ c ∈ cs,
          c.endWord = min (c.startWord + chunk_size) words.length ∧
          start ≤ c.startWord ∧ c.startWord < words.length) ∧
       (∀ h t, cs = h :: t → h.startWord = start) ∧
       List.Chain' (fun a b =>
          b.startWord = a.endWord - overlap ∧ a.startWord < b.startWord ∧
          a.endWord = min (a.startWord + chunk_size) words.length ∧
          b.endWord = min (b.startWord + chunk_size) words.length) cs) := by
  intro fuel
  induction fuel with
  | zero => intro start chunk_id cs h; simp [chunkLoopF] at h
  | succ f ih =>
    intro start chunk_id cs h
    by_cases hs : start < words.length
    · by_cases hbr : min (start + chunk_size) words.length - overlap ≤ start
      · rw [chunkLoopF_step_halt chunk_size overlap words f start chunk_id hs hbr]
          at h
        have hcs : cs = [⟨chunk_id,
            (words.drop start).take (min (start + chunk_size) words.length - start),
            joinSp ((words.drop start).take
              (min (start + chunk_size) words.length - start)),
            start, min (start + chunk_size) words.length,
            ((words.drop start).take
              (min (start + chunk_size) words.length - start)).length⟩] := by
          exact (Option.some.injEq _ _).mp h.symm
        subst hcs
        have hend : min (start + chunk_size) words.length = words.length := by
          omega
        refine ⟨?_, ?_, ?_, ?_⟩
        · intro k
          simp only [List.mem_singleton]
          constructor
          · intro hk
            exact ⟨_, rfl, by simpa using hk.1, by simpa [hend] using hk.2⟩
          · rintro ⟨c, rfl, hk1, hk2⟩
            exact ⟨hk1, by simpa [hend] using hk2⟩
        · intro c hc
          simp only [List.mem_singleton] at hc
          subst hc
          exact ⟨rfl, le_refl _, hs⟩
        · intro hh t hht
          simp only [List.cons.injEq] at hht
          rw [← hht.1]
        · simp
      · rw [chunkLoopF_step_cont chunk_size overlap words f start chunk_id hs hbr]
          at h
        rcases Option.map_eq_some'.mp h with ⟨cs', hrec, hcs⟩
        subst hcs
        have ihs := ih (min (start + chunk_size) words.length - overlap)
          (chunk_id + 1) cs' hrec
        obtain ⟨ihcov, ihmem, ihhead, ihchain⟩ := ihs
        have hmin_le : min (start + chunk_size) words.length ≤ words.length :=
          Nat.min_le_right _ _
        refine ⟨?_, ?_, ?_, ?_⟩
        · intro k
          constructor
          · intro hk
            by_cases hke : k < min (start + chunk_size) words.length
            · exact ⟨_, List.mem_cons_self _ _, hk.1, hke⟩
            · have : min (start + chunk_size) words.length - overlap ≤ k := by omega
              rcases (ihcov k).mp ⟨this, hk.2⟩ with ⟨c, hc, hk1, hk2⟩
              exact ⟨c, List.mem_cons_of_mem _ hc, hk1, hk2⟩
          · rintro ⟨c, hc, hk1, hk2⟩
            rcases List.mem_cons.mp hc with rfl | hc'
            · exact ⟨hk1, lt_of_lt_of_le hk2 hmin_le⟩
            · have := (ihcov k).mpr ⟨c, hc', hk1, hk2⟩
              exact ⟨by omega, this.2⟩
        · intro c hc
          rcases List.mem_cons.mp hc with rfl | hc'
          · exact ⟨rfl, le_refl _, hs⟩
          · rcases ihmem c hc' with ⟨h1, h2, h3⟩
            exact ⟨h1, by omega, h3⟩
        · intro hh t hht
          simp only [List.cons.injEq] at hht
          rw [← hht.1]
        · rw [List.chain'_cons']
          refine ⟨?_, ihchain⟩
          intro y hy
          have hym : y ∈ cs' := List.mem_of_mem_head? hy
          have hyhead : y.startWord =
              min (start + chunk_size) words.length - overlap := by
            cases cs' with
            | nil => simp at hy
            | cons a t =>
              simp only [List.head?_cons, Option.mem_some_iff] at hy
              subst hy
              exact ihhead _ t rfl
          refine ⟨hyhead, ?_, rfl, ?_⟩
          · show start < y.startWord
            omega
          · rw [(ihmem y hym).1]
    · simp only [chunkLoopF, hs, if_false] at h
      have hcs : cs = [] := by
        cases h; rfl
      subst hcs
      refine ⟨?_, by simp, by simp, by simp⟩
      intro k
      simp only [List.not_mem_nil]
      constructor
      · intro hk; omega
      · rintro ⟨c, hc, -⟩; exact absurd hc (by simp)

/-- C3: word-based segmentation terminates on every input for every
parameter pair (fuel `words.length + 1` always suffices, so
`chunk_by_words` always returns a result), and whenever the computed
next start `end - overlap` does not advance strictly past the chunk just
produced, the loop halts with that chunk as the last one. -/
theorem chunk_by_words_terminates (chunk_size overlap : Nat)
    (text : List Char) :
    (∃ cs, chunk_by_words chunk_size overlap text = some cs) ∧
    (∀ (words : List (List Char)) (fuel start chunk_id : Nat),
      start < words.length →
      min (start + chunk_size) words.length - overlap ≤ start →
      chunkLoopF chunk_size overlap words (fuel + 1) start chunk_id =
        some [⟨chunk_id,
          (words.drop start).take (min (start + chunk_size) words.length - start),
          joinSp ((words.drop start).take
            (min (start + chunk_size) words.length - start)),
          start, min (start + chunk_size) words.length,
          ((words.drop start).take
            (min (start + chunk_size) words.length - start)).length⟩]) := by
  constructor
  · exact Option.isSome_iff_exists.mp
      (chunkLoopF_isSome chunk_size overlap (pySplit text)
        ((pySplit text).length + 1) 0 0 (by omega))
  · intro words fuel start chunk_id hs hbr
    exact chunkLoopF_step_halt chunk_size overlap words fuel start chunk_id hs hbr

/-- Witness for C3 at concrete inputs: three words, `target_size = 2`,
`overlap = 2` (an overlap not smaller than the target): segmentation
still returns a result, and from start `0` the guard fires (next start
`min (0+2) 3 - 2 = 0` does not advance), halting with the single chunk
just produced. -/
theorem chunk_by_words_terminates_witness :
    (∃ cs, chunk_by_words 2 2 (String.toList "a b c") = some cs) ∧
    chunkLoopF 2 2 [['a'], ['b'], ['c']] 5 0 0 =
      some [⟨0,
        ([['a'], ['b'], ['c']].drop 0).take (min (0 + 2) [['a'], ['b'], ['c']].length - 0),
        joinSp (([['a'], ['b'], ['c']].drop 0).take
          (min (0 + 2) [['a'], ['b'], ['c']].length - 0)),
        0, min (0 + 2) [['a'], ['b'], ['c']].length,
        (([['a'], ['b'], ['c']].drop 0).take
          (min (0 + 2) [['a'], ['b'], ['c']].length - 0)).length⟩] :=
  ⟨(chunk_by_words_terminates 2 2 (String.toList "a b c")).1,
   (chunk_by_words_terminates 2 2 (String.toList "a b c")).2
     [['a'], ['b'], ['c']] 4 0 0 (by decide) (by decide)⟩

/-- C2: for every text and `overlap < target_size`, the word-based
chunks cover exactly the whole token range (a token index is covered iff
it is in range), and every two consecutive chunks share exactly
`overlap` token positions. -/
theorem chunk_by_words_coverage_overlap (chunk_size overlap : Nat)
    (text : List Char) (hso : overlap < chunk_size) :
    ∃ cs, chunk_by_words chunk_size overlap text = some cs ∧
      (∀ k, k < (pySplit text).length ↔
        ∃ c ∈ cs, c.startWord ≤ k ∧ k < c.endWord) ∧
      List.Chain' (fun a b =>
        (Finset.Ico a.startWord a.endWord ∩
          Finset.Ico b.startWord b.endWord).card = overlap) cs := by
  obtain ⟨cs, hcs⟩ := Option.isSome_iff_exists.mp
    (chunkLoopF_isSome chunk_size overlap (pySplit text)
      ((pySplit text).length + 1) 0 0 (by omega))
  obtain ⟨cov, _, _, chain⟩ :=
    chunkLoopF_spec chunk_size overlap (pySplit text) hso
      ((pySplit text).length + 1) 0 0 cs hcs
  refine ⟨cs, hcs, ?_, ?_⟩
  · intro k
    simpa using cov k
  · refine chain.imp ?_
    intro a b hR
    obtain ⟨h1, h2, h3, h4⟩ := hR
    rw [Finset.Ico_inter_Ico, Nat.card_Ico]
    omega

/-- Witness for C2 at `target_size = 2`, `overlap = 1`, text
`"a b c"`. -/
theorem chunk_by_words_coverage_overlap_witness :
    ∃ cs, chunk_by_words 2 1 (String.toList "a b c") = some cs ∧
      (∀ k, k < (pySplit (String.toList "a b c")).length ↔
        ∃ c ∈ cs, c.startWord ≤ k ∧ k < c.endWord) ∧
      List.Chain' (fun a b =>
        (Finset.Ico a.startWord a.endWord ∩
          Finset.Ico b.startWord b.endWord).card = 1) cs :=
  chunk_by_words_coverage_overlap 2 1 (String.toList "a b c") (by decide)

set_option maxRecDepth 400000 in
/-- C1 (counterexample): segmenting a text of exactly 1200
whitespace-delimited words with `target_size = 500`, `overlap = 50`
yields FOUR chunks, with start offsets 0, 450, 900, 1150 and word counts
500, 500, 300, 50 — not the three chunks (0, 450, 900 / 500, 500, 200)
the specification states: after the chunk `[900, 1200)` the next start
`1150` still advances past `900`, so a fourth 50-word chunk is emitted
before the guard fires. -/
theorem chunk_by_words_1200_counterexample :
    (chunk_by_words 500 50 (joinSp (List.replicate 1200 ['w']))).map
        (List.map fun c => (c.startWord, c.wordCount)) =
      some [(0, 500), (450, 500), (900, 300), (1150, 50)] ∧
    (chunk_by_words 500 50 (joinSp (List.replicate 1200 ['w']))).map
        List.length ≠ some 3 := by
  constructor
  · decide
  · decide

/-- C1 (amended): for every text of exactly 1200 whitespace-delimited
words, word-based segmentation with `target_size = 500`, `overlap = 50`
yields exactly four chunks with spans `[0,500) [450,950) [900,1200)
[1150,1200)` and word counts 500, 500, 300, 50. -/
theorem chunk_by_words_1200_spec (text : List Char)
    (h : (pySplit text).length = 1200) :
    (chunk_by_words 500 50 text).map
        (List.map fun c => (c.startWord, c.endWord, c.wordCount)) =
      some [(0, 500, 500), (450, 950, 500), (900, 1200, 300),
            (1150, 1200, 50)] := by
  rw [show chunk_by_words 500 50 text =
      chunkLoopF 500 50 (pySplit text) ((pySplit text).length + 1) 0 0 from rfl]
  rw [h]
  rw [chunkLoopF_step_cont 500 50 (pySplit text) 1200 0 0 (by omega) (by omega)]
  rw [show min (0 + 500) (pySplit text).length - 50 = 450 by omega]
  rw [show (1200 : Nat) = 1199 + 1 by norm_num]
  rw [chunkLoopF_step_cont 500 50 (pySplit text) 1199 450 (0 + 1)
    (by omega) (by omega)]
  rw [show min (450 + 500) (pySplit text).length - 50 = 900 by omega]
  rw [show (1199 : Nat) = 1198 + 1 by norm_num]
  rw [chunkLoopF_step_cont 500 50 (pySplit text) 1198 900 (0 + 1 + 1)
    (by omega) (by omega)]
  rw [show min (900 + 500) (pySplit text).length - 50 = 1150 by omega]
  rw [show (1198 : Nat) = 1197 + 1 by norm_num]
  rw [chunkLoopF_step_halt 500 50 (pySplit text) 1197 1150 (0 + 1 + 1 + 1)
    (by omega) (by omega)]
  simp only [Option.map_some', List.map_cons, List.map_nil,
    Option.some.injEq, List.cons.injEq, Prod.mk.injEq,
    List.length_take, List.length_drop, true_and, and_true]
  refine ⟨⟨?_, ?_⟩, ⟨?_, ?_⟩, ⟨?_, ?_⟩, ?_, ?_⟩ <;> omega

set_option maxRecDepth 400000 in
/-- Witness for the amended C1 at the concrete 1200-word text
`"w w ... w"`. -/
theorem chunk_by_words_1200_spec_witness :
    (chunk_by_words 500 50 (joinSp (List.replicate 1200 ['w']))).map
        (List.map fun c => (c.startWord, c.endWord, c.wordCount)) =
      some [(0, 500, 500), (450, 950, 500), (900, 1200, 300),
            (1150, 1200, 50)] :=
  chunk_by_words_1200_spec (joinSp (List.replicate 1200 ['w'])) (by decide)

/-! ## Chunk bookkeeping lemmas (claim C7) -/

theorem sumWc_append (a b : List (List Char)) :
    sumWc (a ++ b) = sumWc a + sumWc b := by
  unfold sumWc
  rw [List.map_append, List.sum_append]

theorem count_words_joinSp_tokens (ws : List (List Char))
    (h : ∀ w ∈ ws, w ≠ [] ∧ ∀ c ∈ w, isPyWs c = false) :
    count_words (joinSp ws) = ws.length := by
  rw [count_words_joinSp]
  unfold sumWc
  have hmap : ws.map count_words = ws.map (fun _ => 1) := by
    refine List.map_congr_left ?_
    intro w hw
    unfold count_words
    rw [pySplit_single_token (h w hw).1 (h w hw).2]
    rfl
  rw [hmap]
  simp

theorem chunkLoopF_chunk_facts (chunk_size overlap : Nat)
    (words : List (List Char)) :
    ∀ (fuel start chunk_id : Nat) (cs : List WChunk),
      chunkLoopF chunk_size overlap words fuel start chunk_id = some cs →
      ∀ c ∈ cs, c.text = joinSp c.wordsList ∧
        c.wordCount = c.wordsList.length ∧
        ∀ w ∈ c.wordsList, w ∈ words := by
  intro fuel
  induction fuel with
  | zero => intro start chunk_id cs h; simp [chunkLoopF] at h
  | succ f ih =>
    intro start chunk_id cs h
    by_cases hs : start < words.length
    · by_cases hbr : min (start + chunk_size) words.length - overlap ≤ start
      · rw [chunkLoopF_step_halt chunk_size overlap words f start chunk_id hs hbr]
          at h
        have hcs := (Option.some.injEq _ _).mp h.symm
        subst hcs
        intro c hc
        simp only [List.mem_singleton] at hc
        subst hc
        refine ⟨rfl, rfl, ?_⟩
        intro w hw
        exact List.drop_subset _ _ (List.take_subset _ _ hw)
      · rw [chunkLoopF_step_cont chunk_size overlap words f start chunk_id hs hbr]
          at h
        rcases Option.map_eq_some'.mp h with ⟨cs', hrec, hcs⟩
        subst hcs
        intro c hc
        rcases List.mem_cons.mp hc with rfl | hc'
        · refine ⟨rfl, rfl, ?_⟩
          intro w hw
          exact List.drop_subset _ _ (List.take_subset _ _ hw)
        · exact ih _ _ cs' hrec c hc'
    · simp only [chunkLoopF, hs, if_false] at h
      have hcs : cs = [] := by cases h; rfl
      subst hcs
      intro c hc
      simp at hc

theorem chunkLoopF_ids (chunk_size overlap : Nat)
    (words : List (List Char)) :
    ∀ (fuel start chunk_id : Nat) (cs : List WChunk),
      chunkLoopF chunk_size overlap words fuel start chunk_id = some cs →
      cs.map WChunk.chunkId = List.range' chunk_id cs.length := by
  intro fuel
  induction fuel with
  | zero => intro start chunk_id cs h; simp [chunkLoopF] at h
  | succ f ih =>
    intro start chunk_id cs h
    by_cases hs : start < words.length
    · by_cases hbr : min (start + chunk_size) words.length - overlap ≤ start
      · rw [chunkLoopF_step_halt chunk_size overlap words f start chunk_id hs hbr]
          at h
        have hcs := (Option.some.injEq _ _).mp h.symm
        subst hcs
        simp [List.range']
      · rw [chunkLoopF_step_cont chunk_size overlap words f start chunk_id hs hbr]
          at h
        rcases Option.map_eq_some'.mp h with ⟨cs', hrec, hcs⟩
        subst hcs
        simp only [List.map_cons, List.length_cons, List.range']
        rw [ih _ _ cs' hrec]
    · simp only [chunkLoopF, hs, if_false] at h
      have hcs : cs = [] := by cases h; rfl
      subst hcs
      simp [List.range']

theorem chunkSentLoop_wc (chunk_size : Nat) :
    ∀ (rest current : List (List Char)) (wc chunk_id : Nat),
      wc = sumWc current →
      ∀ c ∈ chunkSentLoop chunk_size rest current wc chunk_id,
        c.wordCount = sumWc c.sentences := by
  intro rest
  induction rest with
  | nil =>
    intro current wc chunk_id hwc c hc
    simp only [chunkSentLoop] at hc
    split at hc
    · simp at hc
    · simp only [List.mem_singleton] at hc
      subst hc
      exact hwc
  | cons s rest' ih =>
    intro current wc chunk_id hwc c hc
    simp only [chunkSentLoop] at hc
    split at hc
    · rcases List.mem_cons.mp hc with rfl | hc'
      · exact hwc
      · refine ih _ _ _ ?_ c hc'
        rw [sumWc_append]
        simp [sumWc]
    · refine ih _ _ _ ?_ c hc
      rw [sumWc_append, hwc]
      simp [sumWc]

theorem chunkSentLoop_ids (chunk_size : Nat) :
    ∀ (rest current : List (List Char)) (wc chunk_id : Nat),
      (chunkSentLoop chunk_size rest current wc chunk_id).map SChunk.chunkId =
        List.range' chunk_id (chunkSentLoop chunk_size rest current wc chunk_id).length := by
  intro rest
  induction rest with
  | nil =>
    intro current wc chunk_id
    simp only [chunkSentLoop]
    split
    · simp [List.range']
    · simp [List.range']
  | cons s rest' ih =>
    intro current wc chunk_id
    simp only [chunkSentLoop]
    split
    · simp only [List.map_cons, List.length_cons, List.range']
      rw [ih]
    · rw [ih]

/-- C7: for every chunk produced by either segmentation strategy, the
recorded word count equals the number of whitespace-delimited words of
the chunk's stored text, and the chunk ids of one call are
`0, 1, 2, ...` in production order, for both strategies. -/
theorem chunk_invariants (chunk_size overlap : Nat) (text : List Char) :
    (∀ cs, chunk_by_words chunk_size overlap text = some cs →
      (∀ c ∈ cs, c.wordCount = count_words c.text) ∧
      cs.map WChunk.chunkId = List.range cs.length) ∧
    (∀ c ∈ chunk_by_sentences chunk_size text,
      c.wordCount = count_words c.text) ∧
    (chunk_by_sentences chunk_size text).map SChunk.chunkId =
      List.range (chunk_by_sentences chunk_size text).length := by
  refine ⟨?_, ?_, ?_⟩
  · intro cs hcs
    have hcs' : chunkLoopF chunk_size overlap (pySplit text)
        ((pySplit text).length + 1) 0 0 = some cs := hcs
    constructor
    · intro c hc
      obtain ⟨ht, hwc, hmem⟩ :=
        chunkLoopF_chunk_facts chunk_size overlap (pySplit text) _ 0 0 cs hcs' c hc
      rw [ht, hwc, count_words_joinSp_tokens]
      intro w hw
      exact pySplit_tokens (hmem w hw)
    · rw [chunkLoopF_ids chunk_size overlap (pySplit text) _ 0 0 cs hcs',
        List.range_eq_range']
  · intro c hc
    have hwc := chunkSentLoop_wc chunk_size (split_into_sentences text) [] 0 0
      rfl c hc
    rw [hwc]
    show sumWc c.sentences = count_words (joinSp c.sentences)
    exact (count_words_joinSp c.sentences).symm
  · show (chunkSentLoop chunk_size (split_into_sentences text) [] 0 0).map
        SChunk.chunkId =
      List.range (chunkSentLoop chunk_size (split_into_sentences text) [] 0 0).length
    rw [chunkSentLoop_ids, List.range_eq_range']

/-- Witness for C7 at `target_size = 2`, `overlap = 1`, text `"a b"`
(word strategy) and the same text for the sentence strategy. -/
theorem chunk_invariants_witness :
    ((∀ c ∈ [(⟨0, [['a'], ['b']], ['a', ' ', 'b'], 0, 2, 2⟩ : WChunk),
              ⟨1, [['b']], ['b'], 1, 2, 1⟩],
        c.wordCount = count_words c.text) ∧
      [(⟨0, [['a'], ['b']], ['a', ' ', 'b'], 0, 2, 2⟩ : WChunk),
       ⟨1, [['b']], ['b'], 1, 2, 1⟩].map WChunk.chunkId =
        List.range 2) ∧
    (∀ c ∈ chunk_by_sentences 2 (String.toList "a b"),
      c.wordCount = count_words c.text) ∧
    (chunk_by_sentences 2 (String.toList "a b")).map SChunk.chunkId =
      List.range (chunk_by_sentences 2 (String.toList "a b")).length :=
  ⟨(chunk_invariants 2 1 (String.toList "a b")).1
      [⟨0, [['a'], ['b']], ['a', ' ', 'b'], 0, 2, 2⟩,
       ⟨1, [['b']], ['b'], 1, 2, 1⟩] (by decide),
   (chunk_invariants 2 1 (String.toList "a b")).2⟩

/-! ## Sentence-based chunking lemmas (claim C4) -/

theorem lastTwo_suffix (l : List (List Char)) : lastTwo l <:+ l := by
  unfold lastTwo
  split
  · exact List.drop_suffix _ _
  · exact List.suffix_rfl

theorem suffix_append_single {a b : List (List Char)} (x : List Char)
    (h : a <:+ b) : a ++ [x] <:+ b ++ [x] := by
  obtain ⟨s, hs⟩ := h
  exact ⟨s, by rw [← List.append_assoc, hs]⟩

theorem chunkSentLoop_sent_structure (chunk_size : Nat) :
    ∀ (rest current : List (List Char)) (wc chunk_id : Nat)
      (p : List (List Char)), current <:+ p →
      ∀ c ∈ chunkSentLoop chunk_size rest current wc chunk_id,
        c.sentences ≠ [] ∧ c.sentences <:+: (p ++ rest) := by
  intro rest
  induction rest with
  | nil =>
    intro current wc chunk_id p hsuf c hc
    simp only [chunkSentLoop] at hc
    split at hc
    · simp at hc
    · next hcur =>
      simp only [List.mem_singleton] at hc
      subst hc
      obtain ⟨s, hs⟩ := hsuf
      refine ⟨hcur, s, [], ?_⟩
      show s ++ current ++ [] = p ++ []
      rw [List.append_nil, List.append_nil, hs]
  | cons sSent rest' ih =>
    intro current wc chunk_id p hsuf c hc
    simp only [chunkSentLoop] at hc
    split at hc
    · next hcl =>
      rcases List.mem_cons.mp hc with rfl | hc'
      · obtain ⟨s, hs⟩ := hsuf
        refine ⟨hcl.2, s, sSent :: rest', ?_⟩
        show s ++ current ++ sSent :: rest' = p ++ sSent :: rest'
        rw [hs]
      · have hsuf' : lastTwo current ++ [sSent] <:+ p ++ [sSent] :=
          suffix_append_single sSent ((lastTwo_suffix current).trans hsuf)
        have hres := ih (lastTwo current ++ [sSent]) _ _ (p ++ [sSent])
          hsuf' c hc'
        rwa [List.append_assoc, List.singleton_append] at hres
    · have hsuf' : current ++ [sSent] <:+ p ++ [sSent] :=
        suffix_append_single sSent hsuf
      have hres := ih (current ++ [sSent]) _ _ (p ++ [sSent]) hsuf' c hc
      rwa [List.append_assoc, List.singleton_append] at hres

theorem chunkSentLoop_head (chunk_size : Nat) :
    ∀ (rest current : List (List Char)) (wc chunk_id : Nat)
      (h : SChunk) (t : List SChunk),
      chunkSentLoop chunk_size rest current wc chunk_id = h :: t →
      current <+: h.sentences := by
  intro rest
  induction rest with
  | nil =>
    intro current wc chunk_id h t hres
    simp only [chunkSentLoop] at hres
    split at hres
    · cases hres
    · simp only [List.cons.injEq] at hres
      cases hres.1
      exact List.prefix_rfl
  | cons sSent rest' ih =>
    intro current wc chunk_id h t hres
    simp only [chunkSentLoop] at hres
    split at hres
    · simp only [List.cons.injEq] at hres
      cases hres.1
      exact List.prefix_rfl
    · have := ih (current ++ [sSent]) _ _ h t hres
      exact (List.prefix_append current [sSent]).trans this

theorem chunkSentLoop_chain (chunk_size : Nat) :
    ∀ (rest current : List (List Char)) (wc chunk_id : Nat),
      List.Chain' (fun a b => lastTwo a.sentences <+: b.sentences)
        (chunkSentLoop chunk_size rest current wc chunk_id) := by
  intro rest
  induction rest with
  | nil =>
    intro current wc chunk_id
    simp only [chunkSentLoop]
    split
    · simp
    · simp
  | cons sSent rest' ih =>
    intro current wc chunk_id
    simp only [chunkSentLoop]
    split
    · rw [List.chain'_cons']
      refine ⟨?_, ih _ _ _⟩
      intro y hy
      cases hrec : chunkSentLoop chunk_size rest'
          (lastTwo current ++ [sSent]) (sumWc (lastTwo current) + count_words sSent)
          (chunk_id + 1) with
      | nil => rw [hrec] at hy; simp at hy
      | cons a t =>
        rw [hrec] at hy
        simp only [List.head?_cons, Option.mem_some_iff] at hy
        subst hy
        have hpre := chunkSentLoop_head chunk_size rest' _ _ _ a t hrec
        exact (List.prefix_append (lastTwo current) [sSent]).trans hpre
    · exact ih _ _ _

theorem chunkSentLoop_mem (chunk_size : Nat) :
    ∀ (rest current : List (List Char)) (wc chunk_id : Nat) (x : List Char),
      (x ∈ current ∨ x ∈ rest) →
      ∃ c ∈ chunkSentLoop chunk_size rest current wc chunk_id,
        x ∈ c.sentences := by
  intro rest
  induction rest with
  | nil =>
    intro current wc chunk_id x hx
    rcases hx with hx | hx
    · have hcur : current ≠ [] := by
        intro h; subst h; simp at hx
      refine ⟨⟨chunk_id, current, wc⟩, ?_, hx⟩
      simp [chunkSentLoop, hcur]
    · simp at hx
  | cons sSent rest' ih =>
    intro current wc chunk_id x hx
    simp only [chunkSentLoop]
    split
    · rcases hx with hx | hx
      · exact ⟨⟨chunk_id, current, wc⟩, List.mem_cons_self _ _, hx⟩
      · rcases List.mem_cons.mp hx with rfl | hx'
        · obtain ⟨c, hc, hxc⟩ := ih (lastTwo current ++ [x]) _ _ x
            (Or.inl (by simp))
          exact ⟨c, List.mem_cons_of_mem _ hc, hxc⟩
        · obtain ⟨c, hc, hxc⟩ := ih (lastTwo current ++ [sSent]) _ _ x
            (Or.inr hx')
          exact ⟨c, List.mem_cons_of_mem _ hc, hxc⟩
    · rcases hx with hx | hx
      · exact ih (current ++ [sSent]) _ _ x (Or.inl (by simp [hx]))
      · rcases List.mem_cons.mp hx with rfl | hx'
        · exact ih (current ++ [x]) _ _ x (Or.inl (by simp))
        · exact ih (current ++ [sSent]) _ _ x (Or.inr hx')

theorem chunkSentLoop_singleton (chunk_size : Nat) (s : List Char) :
    chunkSentLoop chunk_size [s] [] 0 0 = [⟨0, [s], count_words s⟩] := by
  simp [chunkSentLoop]

/-- C4: sentence-based segmentation never splits a sentence: every
chunk's sentence list is a nonempty contiguous run of the sentence split
of the input and every sentence of the split lands whole in some chunk;
each chunk after the first begins with the trailing at-most-two
sentences of its predecessor; and a text that splits into one single
sentence longer than `target_size` still becomes one chunk holding that
sentence whole. -/
theorem chunk_by_sentences_spec (chunk_size : Nat) (text : List Char) :
    (∀ c ∈ chunk_by_sentences chunk_size text,
      c.sentences ≠ [] ∧ c.sentences <:+: split_into_sentences text) ∧
    List.Chain' (fun a b => lastTwo a.sentences <+: b.sentences)
      (chunk_by_sentences chunk_size text) ∧
    (∀ x ∈ split_into_sentences text,
      ∃ c ∈ chunk_by_sentences chunk_size text, x ∈ c.sentences) ∧
    (∀ s : List Char, split_into_sentences text = [s] →
      chunk_size < count_words s →
      chunk_by_sentences chunk_size text = [⟨0, [s], count_words s⟩]) := by
  refine ⟨?_, ?_, ?_, ?_⟩
  · intro c hc
    have := chunkSentLoop_sent_structure chunk_size
      (split_into_sentences text) [] 0 0 [] List.suffix_rfl c hc
    rwa [List.nil_append] at this
  · exact chunkSentLoop_chain chunk_size (split_into_sentences text) [] 0 0
  · intro x hx
    exact chunkSentLoop_mem chunk_size (split_into_sentences text) [] 0 0 x
      (Or.inr hx)
  · intro s hsplit _
    show chunkSentLoop chunk_size (split_into_sentences text) [] 0 0 = _
    rw [hsplit]
    exact chunkSentLoop_singleton chunk_size s

/-- Witness for C4 at the concrete text `"a b c d e."`, which splits
into a single 5-word sentence exceeding `target_size = 2`. -/
theorem chunk_by_sentences_spec_witness :
    ((∀ c ∈ chunk_by_sentences 2 (String.toList "a b c d e."),
      c.sentences ≠ [] ∧
        c.sentences <:+: split_into_sentences (String.toList "a b c d e.")) ∧
    List.Chain' (fun a b => lastTwo a.sentences <+: b.sentences)
      (chunk_by_sentences 2 (String.toList "a b c d e."))) ∧
    chunk_by_sentences 2 (String.toList "a b c d e.") =
      [⟨0, [String.toList "a b c d e."],
        count_words (String.toList "a b c d e.")⟩] :=
  ⟨⟨(chunk_by_sentences_spec 2 (String.toList "a b c d e.")).1,
    (chunk_by_sentences_spec 2 (String.toList "a b c d e.")).2.1⟩,
   (chunk_by_sentences_spec 2 (String.toList "a b c d e.")).2.2.2
     (String.toList "a b c d e.") (by decide) (by decide)⟩

/-! ## FAQFinder lemmas (claims C6, C10) -/

set_option maxRecDepth 100000 in
theorem jaccard_register_query :
    jaccardScore
      (effective_words (clean_text (String.toList "How can I sign up?")))
      (effective_words
        ((add_faq "How do I register?" "Click the register button.").question_clean)) =
      5 / 6 := by
  unfold jaccardScore
  rw [if_neg (by decide)]
  rw [show (effective_words (clean_text (String.toList "How can I sign up?")) ∩
      effective_words
        ((add_faq "How do I register?" "Click the register button.").question_clean)).card =
      5 by decide]
  rw [show (effective_words (clean_text (String.toList "How can I sign up?")) ∪
      effective_words
        ((add_faq "How do I register?" "Click the register button.").question_clean)).card =
      6 by decide]
  norm_num

/-- C6: with one FAQ entry ("How do I register?" / "Click the register
button.") and query "How can I sign up?" at threshold 0.15 = 3/20, the
matcher returns that entry's answer with `matched_question` equal to
"How do I register?": the synonym table bridges "sign" and "register",
the Jaccard score is 5/6, and 5/6 is at least the threshold. -/
theorem find_answer_register_scenario :
    find_answer [add_faq "How do I register?" "Click the register button."]
        "How can I sign up?" (3 / 20) =
      some ⟨"Click the register button.", 5 / 6, some "How do I register?"⟩ ∧
    (3 / 20 : ℚ) ≤ 5 / 6 := by
  constructor
  · have hscan : scanFaqs
        (effective_words (clean_text (String.toList "How can I sign up?")))
        [add_faq "How do I register?" "Click the register button."]
        (none, 0) =
        (some (add_faq "How do I register?" "Click the register button."),
          5 / 6) := by
      simp only [scanFaqs]
      rw [jaccard_register_query]
      rw [if_pos (by norm_num : (5 / 6 : ℚ) > (none (α := FAQ), (0 : ℚ)).2)]
    simp only [find_answer]
    rw [if_neg (by simp : ¬([add_faq "How do I register?"
      "Click the register button."] = []))]
    rw [hscan]
    rw [if_neg (by norm_num : ¬((some (add_faq "How do I register?"
      "Click the register button."), (5 / 6 : ℚ)).2 < 3 / 20))]
    rfl
  · norm_num

theorem jaccardScore_of_disjoint {u f : Finset (List Char)}
    (h : u ∩ f = ∅) : jaccardScore u f = 0 := by
  unfold jaccardScore
  split
  · rfl
  · rw [h]
    simp

theorem scanFaqs_zero (u : Finset (List Char)) :
    ∀ (faqs : List FAQ),
      (∀ f ∈ faqs, jaccardScore u (effective_words f.question_clean) = 0) →
      scanFaqs u faqs (none, 0) = (none, 0) := by
  intro faqs
  induction faqs with
  | nil => intro _; rfl
  | cons f rest ih =>
    intro hz
    simp only [scanFaqs]
    rw [hz f (List.mem_cons_self f rest)]
    rw [if_neg (by norm_num : ¬((0 : ℚ) > (none (α := FAQ), (0 : ℚ)).2))]
    exact ih fun g hg => hz g (List.mem_cons_of_mem f hg)

/-- C10: on a non-empty corpus, a query whose effective (expanded) token
set is disjoint from every entry's effective token set makes every score
0.0; with threshold 0.0 the no-confident-match branch is skipped
(`0.0 < 0.0` is false) while `best_match` is still the `None` sentinel,
so `best_match['answer']` raises instead of returning a result
(modelled as `none`). -/
theorem find_answer_null_deref (faqs : List FAQ) (q : String)
    (hne : faqs ≠ [])
    (hdisj : ∀ f ∈ faqs,
      effective_words (clean_text (String.toList q)) ∩
        effective_words f.question_clean = ∅) :
    find_answer faqs q 0 = none := by
  simp only [find_answer]
  rw [if_neg hne]
  rw [scanFaqs_zero (effective_words (clean_text (String.toList q))) faqs
    (fun f hf => jaccardScore_of_disjoint (hdisj f hf))]
  rw [if_neg (by norm_num : ¬((none (α := FAQ), (0 : ℚ)).2 < 0))]

/-- Witness for C10: one entry with question "xyz", query "qqq": the
effective token sets are disjoint, and the call produces the modelled
exception value. -/
theorem find_answer_null_deref_witness :
    find_answer [add_faq "xyz" "a"] "qqq" 0 = none :=
  find_answer_null_deref [add_faq "xyz" "a"] "qqq" (by simp)
    (by decide)

/-! ## SemanticSimilarity lemmas (claim C8) -/

theorem sumSq_nonneg (v : List ℚ) : 0 ≤ sumSq v := by
  apply List.sum_nonneg
  intro x hx
  rcases List.mem_map.mp hx with ⟨a, -, rfl⟩
  exact mul_self_nonneg a

theorem sqrt_sumSq_eq_zero_iff (v : List ℚ) :
    Real.sqrt ((sumSq v : ℚ) : ℝ) = 0 ↔ sumSq v = 0 := by
  rw [Real.sqrt_eq_zero']
  constructor
  · intro h
    exact le_antisymm (by exact_mod_cast h) (sumSq_nonneg v)
  · intro h
    rw [h]
    simp

/-- C8: `cosine_similarity` raises its dimension-mismatch error exactly
when the two vectors have different lengths; for equal lengths it
returns the defined value `0.0` (rather than raising) whenever either
vector has zero magnitude, and otherwise returns the dot product divided
by the product of the magnitudes. -/
theorem cosine_similarity_spec (v1 v2 : List ℚ) :
    ((∃ msg, cosine_similarity v1 v2 = Except.error msg) ↔
      v1.length ≠ v2.length) ∧
    (v1.length = v2.length → sumSq v1 = 0 ∨ sumSq v2 = 0 →
      cosine_similarity v1 v2 = Except.ok 0) ∧
    (v1.length = v2.length → sumSq v1 ≠ 0 → sumSq v2 ≠ 0 →
      cosine_similarity v1 v2 = Except.ok ((dotProd v1 v2 : ℚ) /
        (Real.sqrt ((sumSq v1 : ℚ) : ℝ) * Real.sqrt ((sumSq v2 : ℚ) : ℝ)))) := by
  refine ⟨⟨?_, ?_⟩, ?_, ?_⟩
  · rintro ⟨msg, hmsg⟩ hlen
    unfold cosine_similarity at hmsg
    rw [if_neg (by simp [hlen])] at hmsg
    split at hmsg <;> cases hmsg
  · intro hlen
    refine ⟨"Vectors must be same length! Got " ++ toString v1.length ++
      " and " ++ toString v2.length, ?_⟩
    unfold cosine_similarity
    rw [if_pos hlen]
  · intro hlen hz
    unfold cosine_similarity
    rw [if_neg (by simp [hlen])]
    rw [if_pos ?_]
    rcases hz with hz | hz
    · exact Or.inl ((sqrt_sumSq_eq_zero_iff v1).mpr hz)
    · exact Or.inr ((sqrt_sumSq_eq_zero_iff v2).mpr hz)
  · intro hlen h1 h2
    unfold cosine_similarity
    rw [if_neg (by simp [hlen])]
    rw [if_neg ?_]
    rintro (hm | hm)
    · exact h1 ((sqrt_sumSq_eq_zero_iff v1).mp hm)
    · exact h2 ((sqrt_sumSq_eq_zero_iff v2).mp hm)

/-- Witness for C8 at the equal-length, non-zero-magnitude vectors
`[1, 0]` and `[0, 1]`. -/
theorem cosine_similarity_spec_witness :
    cosine_similarity [1, 0] [0, 1] = Except.ok ((dotProd [1, 0] [0, 1] : ℚ) /
      (Real.sqrt ((sumSq [1, 0] : ℚ) : ℝ) *
        Real.sqrt ((sumSq [0, 1] : ℚ) : ℝ))) :=
  (cosine_similarity_spec [1, 0] [0, 1]).2.2 rfl
    (by norm_num [sumSq]) (by norm_num [sumSq])

/-! ## RAGAgent lemmas (claim C9) -/

set_option maxRecDepth 1000000 in
/-- C9: when retrieval yields no passages, the prompt handed to the
completion model is the declining template (the fixed text around the
interpolated query instructs the model to respond honestly that the
information is not available, and contains no `[Source` block), and the
packaged result has `has_sources = false` and an empty `sources`
sequence. -/
theorem rag_agent_empty_retrieval (agent : RAGAgent) (llm : String → String)
    (query : String) (top_k : Nat)
    (h : retrieve_context agent query top_k = []) :
    (RAGAgent.answer agent llm query top_k).has_sources = false ∧
    (RAGAgent.answer agent llm query top_k).sources = [] ∧
    (RAGAgent.answer agent llm query top_k).answer =
      llm (build_prompt_with_context query []) ∧
    build_prompt_with_context query [] = noCtxPre ++ query ++ noCtxPost ∧
    containsSub
      (String.toList "Please respond honestly that you don't have this information available")
      (String.toList noCtxPost) = true ∧
    containsSub (String.toList "[Source") (String.toList noCtxPre) = false ∧
    containsSub (String.toList "[Source") (String.toList noCtxPost) = false := by
  refine ⟨?_, ?_, ?_, ?_, by decide, by decide, by decide⟩
  · simp [RAGAgent.answer, h]
  · simp [RAGAgent.answer, h]
  · simp [RAGAgent.answer, h]
  · simp [build_prompt_with_context]

/-- Witness for C9: an agent with no connected knowledge base (so
retrieval returns no passages), the identity completion function, query
`"q"`. -/
theorem rag_agent_empty_retrieval_witness :
    (RAGAgent.answer ⟨none⟩ (fun p => p) "q" 3).has_sources = false ∧
    (RAGAgent.answer ⟨none⟩ (fun p => p) "q" 3).sources = [] ∧
    (RAGAgent.answer ⟨none⟩ (fun p => p) "q" 3).answer =
      (fun p => p) (build_prompt_with_context "q" []) ∧
    build_prompt_with_context "q" [] = noCtxPre ++ "q" ++ noCtxPost ∧
    containsSub
      (String.toList "Please respond honestly that you don't have this information available")
      (String.toList noCtxPost) = true ∧
    containsSub (String.toList "[Source") (String.toList noCtxPre) = false ∧
    containsSub (String.toList "[Source") (String.toList noCtxPost) = false :=
  rag_agent_empty_retrieval ⟨none⟩ (fun p => p) "q" 3 rfl
